import Mathlib

/-!
Shallow embedding of the PromotionEngine C++ sources (src/unnamed/part_000,
src/main.cpp).  A `Cart` (C++ `std::string`) is a list of characters, a `SKU`
(C++ `char`) is a `Char`, and `Price` (C++ `int`) is `Int`.  The two string
primitives the program uses, `std::string::find` and `std::string::erase`,
are embedded as `strFind` / `charFind` and `strErase`; the two promotion
classes `Individual` and `Combined` become the two constructors of the
`Promotion` sum type, with their `do_promote` loops as recursive functions
returning the pair (price charged, mutated cart).
-/

abbrev SKU := Char

abbrev Price := Int

abbrev Cart := List Char

/-- Embedding of the C++ price table
`unit_prices = \x7b\x7b'a',50\x7d,\x7b'b',30\x7d,\x7b'c',20\x7d,\x7b'd',15\x7d\x7d`:
a partial mapping from SKU to unit price (`none` models a key absent from the
`std::unordered_map`, on which `.at` throws). -/
def unit_prices : SKU → Option Price
  | 'a' => some 50
  | 'b' => some 30
  | 'c' => some 20
  | 'd' => some 15
  | _ => none

/-- Embedding of `std::string::find(const std::string&)`: the smallest index at
which `pat` occurs as a contiguous substring of `s`, or `none` (C++ `npos`) if
it does not occur.  As in C++, the empty pattern is found at index 0. -/
def strFind (pat : List Char) : List Char → Option Nat
  | [] => if pat.isPrefixOf [] then some 0 else none
  | x :: t =>
    if pat.isPrefixOf (x :: t) then some 0
    else (strFind pat t).map (· + 1)

/-- Embedding of `std::string::find(char)`: the smallest index at which the
character `c` occurs in `s`, or `none` (C++ `npos`). -/
def charFind (c : Char) : List Char → Option Nat
  | [] => none
  | x :: t => if x = c then some 0 else (charFind c t).map (· + 1)

/-- Embedding of `std::string::erase(pos, cnt)`: removes the `cnt` characters
starting at index `pos` (fewer if the string ends first).  Every call site in
the program has `pos ≤ s.length`, where this is exact. -/
def strErase (s : List Char) (pos cnt : Nat) : List Char :=
  s.take pos ++ s.drop (pos + cnt)

-- Facts about the primitives needed for termination of the promotion loops.

theorem strErase_length_le (s : List Char) (pos cnt : Nat) :
    (strErase s pos cnt).length ≤ s.length := by
  simp only [strErase, List.length_append, List.length_take, List.length_drop]
  omega

theorem strErase_length (s : List Char) (pos cnt : Nat)
    (h : pos + cnt ≤ s.length) :
    (strErase s pos cnt).length = s.length - cnt := by
  simp only [strErase, List.length_append, List.length_take, List.length_drop]
  omega

theorem isPrefixOf_length {pat s : List Char} (h : pat.isPrefixOf s = true) :
    pat.length ≤ s.length := by
  induction pat generalizing s with
  | nil => simp
  | cons a as ih =>
    cases s with
    | nil => simp [List.isPrefixOf] at h
    | cons b bs =>
      simp only [List.isPrefixOf, Bool.and_eq_true, beq_iff_eq] at h
      simpa using ih h.2

theorem strFind_le_length {pat s : List Char} {pos : Nat}
    (h : strFind pat s = some pos) : pos ≤ s.length := by
  induction s generalizing pos with
  | nil =>
    simp only [strFind] at h
    split at h
    · simp at h; omega
    · simp at h
  | cons x t ih =>
    simp only [strFind] at h
    split at h
    · simp at h; omega
    · simp only [Option.map_eq_some'] at h
      obtain ⟨q, hq, rfl⟩ := h
      have := ih hq
      simp only [List.length_cons]
      omega

theorem strFind_isPrefixOf {pat s : List Char} {pos : Nat}
    (h : strFind pat s = some pos) : pat.isPrefixOf (s.drop pos) = true := by
  induction s generalizing pos with
  | nil =>
    simp only [strFind] at h
    split at h
    · simp only [Option.some.injEq] at h
      subst h
      simp_all
    · simp at h
  | cons x t ih =>
    simp only [strFind] at h
    split at h
    · simp only [Option.some.injEq] at h
      subst h
      simp_all
    · simp only [Option.map_eq_some'] at h
      obtain ⟨q, hq, rfl⟩ := h
      simpa using ih hq

theorem strFind_bound {pat s : List Char} {pos : Nat}
    (h : strFind pat s = some pos) : pos + pat.length ≤ s.length := by
  have h1 := strFind_le_length h
  have h2 := isPrefixOf_length (strFind_isPrefixOf h)
  simp only [List.length_drop] at h2
  omega

theorem charFind_lt_length {c : Char} {s : List Char} {pos : Nat}
    (h : charFind c s = some pos) : pos < s.length := by
  induction s generalizing pos with
  | nil => simp [charFind] at h
  | cons x t ih =>
    rw [charFind] at h
    split at h
    · cases h
      simp
    · simp only [Option.map_eq_some'] at h
      obtain ⟨q, hq, rfl⟩ := h
      have := ih hq
      simp only [List.length_cons]
      omega

/-- Embedding of `Individual::do_promote` (the bundle rule): build the pattern
of `n` copies of `sku` (C++ `std::string(n_, sku_)`), and while the cart
contains it as a contiguous substring, erase the leftmost occurrence and add
`price` to the total.  The `0 < n` test is not in the C++: when `n = 0` the
C++ loop never terminates (the empty pattern is always found at index 0 and
the erase removes nothing — see the C2 theorem); the test makes the model
total, and every theorem about the bundle rule assumes `1 ≤ n` or is
unaffected by the `n = 0` value. -/
def Individual.do_promote (n : Nat) (sku : SKU) (price : Price)
    (cart : Cart) : Price × Cart :=
  match hfind : strFind (List.replicate n sku) cart with
  | none => (0, cart)
  | some pos =>
    if hn : 0 < n then
      let r := Individual.do_promote n sku price (strErase cart pos n)
      (r.1 + price, r.2)
    else (0, cart)
termination_by cart.length
decreasing_by
  have hb := strFind_bound hfind
  rw [List.length_replicate] at hb
  have h3 := strErase_length cart pos n hb
  omega

/-- Embedding of `Combined::do_promote` (the pair rule): while the cart
contains both `sku1` and `sku2`, erase the leftmost occurrence of each (the
one at the larger index first, exactly as the C++ swap arranges) and add
`price` to the total. -/
def Combined.do_promote (sku1 sku2 : SKU) (price : Price)
    (cart : Cart) : Price × Cart :=
  match h1 : charFind sku1 cart, h2 : charFind sku2 cart with
  | some pos1, some pos2 =>
    let r := Combined.do_promote sku1 sku2 price
      (strErase (strErase cart (if pos1 > pos2 then pos1 else pos2) 1)
        (if pos1 > pos2 then pos2 else pos1) 1)
    (r.1 + price, r.2)
  | none, _ => (0, cart)
  | some _, none => (0, cart)
termination_by cart.length
decreasing_by
  simp only [dite_eq_ite]
  have hb1 := charFind_lt_length h1
  have hb2 := charFind_lt_length h2
  have hq2 : (if pos1 > pos2 then pos1 else pos2) < cart.length := by
    split <;> omega
  have he1 : (strErase cart (if pos1 > pos2 then pos1 else pos2) 1).length
      = cart.length - 1 := strErase_length _ _ _ (by omega)
  have he2 := strErase_length_le
    (strErase cart (if pos1 > pos2 then pos1 else pos2) 1)
    (if pos1 > pos2 then pos2 else pos1) 1
  omega

/-- The promotion rule sum type: the C++ abstract base class `Promotion` with
its two concrete subclasses `Individual(n, sku, price)` and
`Combined(sku1, sku2, price)`.  The C++ constructors store the fields without
any validation, so construction is total. -/
inductive Promotion where
  | individual (n : Nat) (sku : SKU) (price : Price)
  | combined (sku1 sku2 : SKU) (price : Price)

/-- Embedding of `Promotion::promote` / virtual dispatch to `do_promote`. -/
def Promotion.promote : Promotion → Cart → Price × Cart
  | .individual n sku price, cart => Individual.do_promote n sku price cart
  | .combined sku1 sku2 price, cart => Combined.do_promote sku1 sku2 price cart

/-- Embedding of `Price calculate_price(const Cart&)` (named `charge` in
src/main.cpp): sum `unit_prices.at(sku)` over the cart, left to right;
`none` models the `std::out_of_range` exception thrown by `.at` on the first
SKU absent from the table. -/
def charge : Cart → Option Price
  | [] => some 0
  | c :: t =>
    match unit_prices c with
    | none => none
    | some p => (charge t).map (fun r => p + r)

/-- Embedding of the unit-price overload `calculate_price(const Cart&)`. -/
def calculate_price (cart : Cart) : Option Price :=
  charge cart

/-- The body of the aggregation loop in
`calculate_price(const Cart&, const Promotions&)`:
`price += promotion->promote(cart)` threading the accumulated price and the
working cart. -/
def promoteStep (st : Price × Cart) (promo : Promotion) : Price × Cart :=
  let r := promo.promote st.2
  (st.1 + r.1, r.2)

/-- Embedding of `calculate_price(const Cart& c, const Promotion* promotion)`:
copy the cart, apply the single rule to the copy, then charge the remainder. -/
def calculate_price_promo (c : Cart) (promo : Promotion) : Option Price :=
  let r := promo.promote c
  (charge r.2).map (fun u => r.1 + u)

/-- Embedding of `calculate_price(const Cart& c, const Promotions&)`: copy the
cart, apply each rule in list order to the same copy accumulating the
returned prices, then charge the remainder. -/
def calculate_price_promos (c : Cart) (promotions : List Promotion) :
    Option Price :=
  let r := promotions.foldl promoteStep (0, c)
  (charge r.2).map (fun u => r.1 + u)

-- Step equations for the two promotion loops, used to unfold them in proofs.

theorem Individual.do_promote_none {n : Nat} {sku : SKU} {price : Price}
    {cart : Cart} (h : strFind (List.replicate n sku) cart = none) :
    Individual.do_promote n sku price cart = (0, cart) := by
  rw [Individual.do_promote.eq_def, h]

theorem Individual.do_promote_bundle_step {n : Nat} {sku : SKU} {price : Price}
    {cart : Cart} {pos : Nat}
    (h : strFind (List.replicate n sku) cart = some pos) (hn : 0 < n) :
    Individual.do_promote n sku price cart =
      ((Individual.do_promote n sku price (strErase cart pos n)).1 + price,
       (Individual.do_promote n sku price (strErase cart pos n)).2) := by
  rw [Individual.do_promote.eq_def, h]
  simp [hn]

theorem Combined.do_promote_none1 {s1 s2 : SKU} {price : Price} {cart : Cart}
    (h : charFind s1 cart = none) :
    Combined.do_promote s1 s2 price cart = (0, cart) := by
  rw [Combined.do_promote.eq_def, h]

theorem Combined.do_promote_none2 {s1 s2 : SKU} {price : Price} {cart : Cart}
    (h : charFind s2 cart = none) :
    Combined.do_promote s1 s2 price cart = (0, cart) := by
  rw [Combined.do_promote.eq_def, h]
  cases charFind s1 cart <;> rfl

theorem Combined.do_promote_pair_step {s1 s2 : SKU} {price : Price} {cart : Cart}
    {pos1 pos2 : Nat} (h1 : charFind s1 cart = some pos1)
    (h2 : charFind s2 cart = some pos2) :
    Combined.do_promote s1 s2 price cart =
      ((Combined.do_promote s1 s2 price
          (strErase (strErase cart (if pos1 > pos2 then pos1 else pos2) 1)
            (if pos1 > pos2 then pos2 else pos1) 1)).1 + price,
       (Combined.do_promote s1 s2 price
          (strErase (strErase cart (if pos1 > pos2 then pos1 else pos2) 1)
            (if pos1 > pos2 then pos2 else pos1) 1)).2) := by
  rw [Combined.do_promote.eq_def, h1, h2]

-- Characterisations of the find primitives.

theorem charFind_eq_none {c : Char} {s : List Char} :
    charFind c s = none ↔ c ∉ s := by
  induction s with
  | nil => simp [charFind]
  | cons x t ih =>
    rw [charFind]
    split
    · rename_i hx
      subst hx
      simp
    · rename_i hx
      simp only [Option.map_eq_none', ih, List.mem_cons]
      constructor
      · intro h hc
        rcases hc with hc | hc
        · exact hx hc.symm
        · exact h hc
      · intro h hc
        exact h (Or.inr hc)

theorem charFind_drop {c : Char} {s : List Char} {pos : Nat}
    (h : charFind c s = some pos) :
    s.drop pos = c :: s.drop (pos + 1) := by
  induction s generalizing pos with
  | nil => simp [charFind] at h
  | cons x t ih =>
    rw [charFind] at h
    split at h
    · rename_i hx
      cases h
      simpa using hx
    · simp only [Option.map_eq_some'] at h
      obtain ⟨q, hq, rfl⟩ := h
      simpa [List.drop_succ_cons] using ih hq

theorem isPrefixOf_count {pat s : List Char}
    (h : pat.isPrefixOf s = true) (x : Char) :
    pat.count x ≤ s.count x := by
  induction pat generalizing s with
  | nil => simp
  | cons a as ih =>
    cases s with
    | nil => simp [List.isPrefixOf] at h
    | cons b bs =>
      simp only [List.isPrefixOf, Bool.and_eq_true, beq_iff_eq] at h
      obtain ⟨rfl, h2⟩ := h
      simp only [List.count_cons]
      have := ih h2
      omega

theorem count_le_of_strFind {n : Nat} {c : Char} {s : List Char} {pos : Nat}
    (h : strFind (List.replicate n c) s = some pos) : n ≤ s.count c := by
  have h2 := isPrefixOf_count (strFind_isPrefixOf h) c
  rw [List.count_replicate] at h2
  simp only [beq_self_eq_true, if_pos] at h2
  have h3 := (List.drop_sublist pos s).count_le c
  omega

theorem strFind_replicate_eq_none {n : Nat} {c : Char} {s : List Char}
    (h : s.count c < n) : strFind (List.replicate n c) s = none := by
  cases hf : strFind (List.replicate n c) s with
  | none => rfl
  | some pos => exact absurd (count_le_of_strFind hf) (by omega)

-- Count bookkeeping for single-character erases (the pair rule removes the
-- character at the found index, so counts drop by exactly one).

theorem count_strErase_one {s : List Char} {pos : Nat} {c : Char}
    (h : s.drop pos = c :: s.drop (pos + 1)) (x : Char) :
    (strErase s pos 1).count x + (if c = x then 1 else 0) = s.count x := by
  conv_rhs => rw [← List.take_append_drop pos s, h]
  rw [strErase]
  simp only [List.count_append, List.count_cons, beq_iff_eq]
  omega

theorem drop_strErase_of_lt {s : List Char} {i j : Nat} {d : Char}
    (hij : i < j) (hjlen : j ≤ s.length)
    (hi : s.drop i = d :: s.drop (i + 1)) :
    (strErase s j 1).drop i = d :: (strErase s j 1).drop (i + 1) := by
  have htk : (List.take j s).length = j := by
    simp [List.length_take]
    omega
  rw [strErase, List.drop_append_of_le_length (by omega),
    List.drop_append_of_le_length (by omega), List.drop_take, List.drop_take,
    hi]
  have hsub : j - i = (j - (i + 1)) + 1 := by omega
  rw [hsub, List.take_succ_cons]
  simp

theorem count_strErase_pair_ordered {s : List Char} {i j : Nat} {d1 d2 : Char}
    (hij : i < j)
    (hi : s.drop i = d1 :: s.drop (i + 1))
    (hj : s.drop j = d2 :: s.drop (j + 1)) (x : Char) :
    (strErase (strErase s j 1) i 1).count x
      + ((if d1 = x then 1 else 0) + (if d2 = x then 1 else 0)) = s.count x := by
  have hjlen : j < s.length := by
    by_contra hcon
    push_neg at hcon
    rw [List.drop_eq_nil_of_le hcon] at hj
    exact List.noConfusion hj
  have e1 := count_strErase_one hj x
  have e2 := count_strErase_one (drop_strErase_of_lt hij (le_of_lt hjlen) hi) x
  omega

theorem count_strErase_pair {cart : Cart} {pos1 pos2 : Nat} {s1 s2 : Char}
    (hne : pos1 ≠ pos2)
    (h1 : cart.drop pos1 = s1 :: cart.drop (pos1 + 1))
    (h2 : cart.drop pos2 = s2 :: cart.drop (pos2 + 1)) (x : Char) :
    (strErase (strErase cart (if pos1 > pos2 then pos1 else pos2) 1)
      (if pos1 > pos2 then pos2 else pos1) 1).count x
      + ((if s1 = x then 1 else 0) + (if s2 = x then 1 else 0)) = cart.count x := by
  rcases lt_or_gt_of_ne hne with hlt | hgt
  · rw [if_neg (by omega), if_neg (by omega)]
    have := count_strErase_pair_ordered hlt h1 h2 x
    omega
  · rw [if_pos hgt, if_pos hgt]
    have := count_strErase_pair_ordered hgt h2 h1 x
    omega

-- The pair-rule price formula, by strong induction on the cart length.

theorem combined_price_aux {s1 s2 : SKU} {p : Price} (hne : s1 ≠ s2) :
    ∀ (len : Nat) (cart : Cart), cart.length ≤ len →
      (Combined.do_promote s1 s2 p cart).1
        = ((min (cart.count s1) (cart.count s2) : Nat) : Int) * p := by
  intro len
  induction len with
  | zero =>
    intro cart hlen
    have hc : cart = [] := List.length_eq_zero.mp (Nat.le_zero.mp hlen)
    subst hc
    rw [Combined.do_promote_none1 (by rw [charFind])]
    simp
  | succ m ih =>
    intro cart hlen
    cases hc1 : charFind s1 cart with
    | none =>
      rw [Combined.do_promote_none1 hc1]
      have hz : cart.count s1 = 0 := List.count_eq_zero.mpr (charFind_eq_none.mp hc1)
      simp [hz]
    | some pos1 =>
      cases hc2 : charFind s2 cart with
      | none =>
        rw [Combined.do_promote_none2 hc2]
        have hz : cart.count s2 = 0 := List.count_eq_zero.mpr (charFind_eq_none.mp hc2)
        simp [hz]
      | some pos2 =>
        rw [Combined.do_promote_pair_step hc1 hc2]
        have hd1 := charFind_drop hc1
        have hd2 := charFind_drop hc2
        have hposne : pos1 ≠ pos2 := by
          intro he
          rw [he, hd2] at hd1
          exact hne (List.head_eq_of_cons_eq hd1).symm
        have hcs1 := count_strErase_pair hposne hd1 hd2 s1
        have hcs2 := count_strErase_pair hposne hd1 hd2 s2
        rw [if_pos rfl, if_neg (Ne.symm hne)] at hcs1
        rw [if_neg hne, if_pos rfl] at hcs2
        have hb1 := charFind_lt_length hc1
        have hb2 := charFind_lt_length hc2
        have hq2 : (if pos1 > pos2 then pos1 else pos2) < cart.length := by
          split <;> omega
        have he1 : (strErase cart (if pos1 > pos2 then pos1 else pos2) 1).length
            = cart.length - 1 := strErase_length _ _ _ (by omega)
        have he2 := strErase_length_le
          (strErase cart (if pos1 > pos2 then pos1 else pos2) 1)
          (if pos1 > pos2 then pos2 else pos1) 1
        rw [ih _ (by omega)]
        have hmin : min (cart.count s1) (cart.count s2)
            = min ((strErase (strErase cart (if pos1 > pos2 then pos1 else pos2) 1)
                (if pos1 > pos2 then pos2 else pos1) 1).count s1)
              ((strErase (strErase cart (if pos1 > pos2 then pos1 else pos2) 1)
                (if pos1 > pos2 then pos2 else pos1) 1).count s2) + 1 := by
          omega
        rw [hmin]
        push_cast
        ring

-- Locating the bundle pattern in a cart whose matching characters form one
-- contiguous block, and the effect of the erase there.

theorem isPrefixOf_append_self (p t : List Char) :
    p.isPrefixOf (p ++ t) = true := by
  induction p with
  | nil => simp [List.isPrefixOf]
  | cons a as ih => simp [List.isPrefixOf, ih]

theorem strFind_of_isPrefixOf {pat s : List Char}
    (h : pat.isPrefixOf s = true) : strFind pat s = some 0 := by
  cases s <;> rw [strFind] <;> simp [h]

theorem isPrefixOf_replicate_cons {n : Nat} {c x : Char} {t : List Char}
    (hn : 0 < n) (hx : x ≠ c) :
    (List.replicate n c).isPrefixOf (x :: t) = false := by
  cases n with
  | zero => omega
  | succ m =>
    rw [List.replicate_succ]
    simp [List.isPrefixOf, Ne.symm hx]

theorem strFind_prefix_block {n k : Nat} {c : Char} (u v : List Char)
    (hn : 0 < n) (hnk : n ≤ k) (hu : c ∉ u) :
    strFind (List.replicate n c) (u ++ List.replicate k c ++ v)
      = some u.length := by
  induction u with
  | nil =>
    apply strFind_of_isPrefixOf
    have hk : List.replicate k c = List.replicate n c ++ List.replicate (k - n) c := by
      rw [← List.replicate_add]
      congr 1
      omega
    simp only [List.nil_append, hk, List.append_assoc]
    exact isPrefixOf_append_self _ _
  | cons x u2 ih =>
    have hxne : x ≠ c := by
      intro he
      exact hu (he ▸ List.mem_cons_self x u2)
    have hu2 : c ∉ u2 := fun hm => hu (List.mem_cons_of_mem x hm)
    simp only [List.cons_append]
    rw [strFind]
    rw [isPrefixOf_replicate_cons hn hxne]
    simp only [Bool.false_eq_true, if_false, ih hu2, Option.map_some']
    simp

theorem strErase_block {n k : Nat} {c : Char} (u v : List Char) (hnk : n ≤ k) :
    strErase (u ++ List.replicate k c ++ v) u.length n
      = u ++ List.replicate (k - n) c ++ v := by
  rw [strErase]
  simp only [List.append_assoc]
  rw [List.take_left, List.drop_append]
  have hk : List.replicate k c = List.replicate n c ++ List.replicate (k - n) c := by
    rw [← List.replicate_add]
    congr 1
    omega
  rw [hk, List.append_assoc, List.drop_left' (by simp)]

-- The bundle-rule result on a cart whose occurrences of the SKU form one
-- contiguous block, by strong induction on the block size.

theorem individual_price_block_aux {n : Nat} (hn : 0 < n) (sku : SKU)
    (p : Price) :
    ∀ (k : Nat) (u v : List Char), sku ∉ u → sku ∉ v →
      Individual.do_promote n sku p (u ++ List.replicate k sku ++ v)
        = (((k / n : Nat) : Int) * p,
           u ++ List.replicate (k % n) sku ++ v) := by
  intro k
  induction k using Nat.strong_induction_on with
  | _ k ih =>
    intro u v hu hv
    by_cases hnk : n ≤ k
    · rw [Individual.do_promote_bundle_step (strFind_prefix_block u v hn hnk hu) hn,
        strErase_block u v hnk, ih (k - n) (by omega) u v hu hv]
      have hdiv : k / n = (k - n) / n + 1 := Nat.div_eq_sub_div hn hnk
      have hmod : (k - n) % n = k % n := (Nat.mod_eq_sub_mod hnk).symm
      rw [hmod, hdiv]
      simp only [Prod.mk.injEq]
      refine ⟨?_, by simp⟩
      push_cast
      ring
    · have hcount : (u ++ List.replicate k sku ++ v).count sku < n := by
        simp only [List.count_append, List.count_replicate,
          List.count_eq_zero_of_not_mem hu, List.count_eq_zero_of_not_mem hv,
          beq_self_eq_true, if_pos]
        omega
      rw [Individual.do_promote_none (strFind_replicate_eq_none hcount),
        Nat.div_eq_of_lt (by omega), Nat.mod_eq_of_lt (by omega)]
      simp

-- Shifting the price accumulator out of the aggregation loop.

theorem foldl_promoteStep_shift (ps : List Promotion) :
    ∀ (a : Price) (c : Cart),
      ps.foldl promoteStep (a, c) =
        (a + (ps.foldl promoteStep (0, c)).1,
         (ps.foldl promoteStep (0, c)).2) := by
  induction ps with
  | nil =>
    intro a c
    simp
  | cons p ps ih =>
    intro a c
    simp only [List.foldl_cons, promoteStep]
    rw [ih (a + (p.promote c).1) (p.promote c).2,
      ih ((0 : Int) + (p.promote c).1) (p.promote c).2]
    simp only [Prod.mk.injEq]
    exact ⟨by ring, by simp⟩

-- Success and failure of the unit pricer.

theorem charge_eq_none_iff {cart : Cart} :
    charge cart = none ↔ ∃ c ∈ cart, unit_prices c = none := by
  induction cart with
  | nil => simp [charge]
  | cons a t ih =>
    rw [charge]
    cases hu : unit_prices a with
    | none =>
      simp only [List.mem_cons]
      exact iff_of_true trivial ⟨a, Or.inl rfl, hu⟩
    | some pa =>
      simp only [Option.map_eq_none', ih, List.mem_cons]
      constructor
      · rintro ⟨c, hc, hcn⟩
        exact ⟨c, Or.inr hc, hcn⟩
      · rintro ⟨c, hc | hc, hcn⟩
        · rw [hc, hu] at hcn
          exact Option.noConfusion hcn
        · exact ⟨c, hc, hcn⟩

theorem charge_eq_sum {cart : Cart}
    (h : ∀ c ∈ cart, unit_prices c ≠ none) :
    charge cart
      = some ((cart.map (fun c => (unit_prices c).getD 0)).sum) := by
  induction cart with
  | nil => simp [charge]
  | cons a t ih =>
    have ha := h a (List.mem_cons_self a t)
    obtain ⟨pa, hpa⟩ := Option.ne_none_iff_exists.mp ha
    rw [charge, ← hpa, ih (fun c hc => h c (List.mem_cons_of_mem a hc))]
    simp [← hpa]

/-- The call-level embedding of `calculate_price(const Cart&)`: the pair of
the returned price and the caller's cart as visible after the call.  The C++
function takes `const Cart&` and only reads it. -/
def calculate_price_run (c : Cart) : Option Price × Cart :=
  (charge c, c)

/-- The call-level embedding of
`calculate_price(const Cart& c, const Promotion* promotion)`: the C++ body
copies `c` into a local `cart` (`Cart cart = c;`), lets the rule mutate the
local copy, and never writes through `c`, so the caller's slot still holds
`c` when the call returns. -/
def calculate_price_promo_run (c : Cart) (promo : Promotion) :
    Option Price × Cart :=
  let cart := c
  let r := promo.promote cart
  ((charge r.2).map (fun u => r.1 + u), c)

/-- The call-level embedding of
`calculate_price(const Cart& c, const Promotions& promotions)`: same
value-copy protocol as the single-rule overload, with the rule list folded
over the local copy. -/
def calculate_price_promos_run (c : Cart) (promotions : List Promotion) :
    Option Price × Cart :=
  let cart := c
  let r := promotions.foldl promoteStep (0, cart)
  ((charge r.2).map (fun u => r.1 + u), c)

/-- C1 (counterexample): the bundle rule does not match by multiset
containment.  The cart "aba" holds two occurrences of 'a', so the claim
predicts price (2 / 2) * 10 = 10 for the rule Individual(2, 'a', 10), but
`Individual::do_promote` searches for the contiguous substring "aa", finds
none, and returns 0 leaving the cart untouched. -/
theorem bundle_rule_nonadjacent_counterexample :
    List.count 'a' ['a', 'b', 'a'] = 2 ∧
    Individual.do_promote 2 'a' 10 ['a', 'b', 'a'] = (0, ['a', 'b', 'a']) ∧
    (0 : Int) ≠ ((List.count 'a' ['a', 'b', 'a'] / 2 : Nat) : Int) * 10 := by
  refine ⟨by decide, ?_, by decide⟩
  exact Individual.do_promote_none (by decide)

/-- C1 (amended): for every bundle rule with quantity `n ≥ 1` the apply loop
repeatedly erases the leftmost occurrence of the contiguous substring of `n`
copies of `sku`, adding `p` each time, so matching is adjacency-dependent;
on any cart whose occurrences of `sku` form one contiguous block of size `k`
(cart = u ++ sku^k ++ v with `sku` absent from `u` and `v`) it returns
`(k / n) * p` and leaves exactly `k % n` occurrences of `sku`, in place. -/
theorem bundle_rule_contiguous_block (n k : Nat) (sku : SKU) (p : Price)
    (u v : List Char) (hn : 1 ≤ n) (hu : sku ∉ u) (hv : sku ∉ v) :
    Individual.do_promote n sku p (u ++ List.replicate k sku ++ v)
      = (((k / n : Nat) : Int) * p, u ++ List.replicate (k % n) sku ++ v) :=
  individual_price_block_aux hn sku p k u v hu hv

theorem bundle_rule_contiguous_block_witness :
    Individual.do_promote 2 'a' 45 (['b'] ++ List.replicate 5 'a' ++ ['c'])
      = (((5 / 2 : Nat) : Int) * 45,
         ['b'] ++ List.replicate (5 % 2) 'a' ++ ['c']) :=
  bundle_rule_contiguous_block 2 5 'a' 45 ['b'] ['c'] (by decide) (by decide)
    (by decide)

/-- C2 (code bug): the C++ constructors validate nothing, so
`Individual(0, sku, price)` is accepted; at apply time its pattern
`std::string(0, sku)` is the empty string, which `find` locates at position
0 on every cart while `erase(pos, 0)` removes nothing — the loop guard holds
forever with no progress, so `do_promote` never terminates instead of the
configuration being rejected at construction. -/
theorem bundle_zero_quantity_apply_diverges (cart : Cart) (sku : SKU) :
    strFind (List.replicate 0 sku) cart = some 0 ∧ strErase cart 0 0 = cart := by
  constructor
  · cases cart <;> simp [strFind, List.replicate, List.isPrefixOf]
  · rw [strErase]
    simp

/-- C3: the rule-list pricing overload is the sequential aggregation: with no
rules it unit-prices the cart, and with rule `p` in front it applies `p`
exactly once to the working cart, prices the reduced cart with the remaining
rules, and adds the price `p` returned; so every rule runs once, in list
order, over the single working copy reduced by all earlier rules, and the
total is the sum of the rules' prices plus the unit price of the
remainder. -/
theorem calculate_price_promos_sequential :
    (∀ c : Cart, calculate_price_promos c [] = charge c) ∧
    (∀ (c : Cart) (p : Promotion) (ps : List Promotion),
      calculate_price_promos c (p :: ps) =
        (calculate_price_promos (p.promote c).2 ps).map
          (fun r => (p.promote c).1 + r)) := by
  constructor
  · intro c
    rw [calculate_price_promos]
    simp only [List.foldl_nil]
    cases hch : charge c <;> simp [hch]
  · intro c p ps
    simp only [calculate_price_promos, List.foldl_cons, promoteStep]
    rw [foldl_promoteStep_shift ps ((0 : Int) + (p.promote c).1)
      (p.promote c).2]
    cases hch : charge ((ps.foldl promoteStep (0, (p.promote c).2)).2) <;>
      simp [hch] <;> ring

/-- C4: for distinct SKUs the pair rule removes one occurrence of each while
both are present and returns `min(count s1, count s2) * p`; the price is a
function of the identifier counts only, hence invariant under any
permutation of the cart (in particular "cd" versus "dc"). -/
theorem pair_rule_price_min (s1 s2 : SKU) (p : Price) (cart : Cart)
    (hne : s1 ≠ s2) :
    (Combined.do_promote s1 s2 p cart).1
      = ((min (cart.count s1) (cart.count s2) : Nat) : Int) * p ∧
    ∀ cart2 : Cart, cart.Perm cart2 →
      (Combined.do_promote s1 s2 p cart).1
        = (Combined.do_promote s1 s2 p cart2).1 := by
  have h1 := combined_price_aux (p := p) hne cart.length cart le_rfl
  refine ⟨h1, fun cart2 hperm => ?_⟩
  have h2 := combined_price_aux (p := p) hne cart2.length cart2 le_rfl
  rw [h1, h2, hperm.count_eq, hperm.count_eq]

theorem pair_rule_price_min_witness :
    (Combined.do_promote 'c' 'd' 30 ['c', 'd']).1
      = ((min (List.count 'c' ['c', 'd']) (List.count 'd' ['c', 'd'])
          : Nat) : Int) * 30 ∧
    (Combined.do_promote 'c' 'd' 30 ['c', 'd']).1
      = (Combined.do_promote 'c' 'd' 30 ['d', 'c']).1 :=
  ⟨(pair_rule_price_min 'c' 'd' 30 ['c', 'd'] (by decide)).1,
   (pair_rule_price_min 'c' 'd' 30 ['c', 'd'] (by decide)).2 ['d', 'c']
     (by decide)⟩

/-- C5: all three pricing operations return only a price and leave the
caller's cart slot holding the original value: the C++ bodies copy the
`const Cart&` argument into a local working cart (`Cart cart = c;`) and
every mutation performed by rule application happens on that copy. -/
theorem pricing_preserves_caller_cart (c : Cart) (promo : Promotion)
    (ps : List Promotion) :
    (calculate_price_run c).2 = c ∧
    (calculate_price_promo_run c promo).2 = c ∧
    (calculate_price_promos_run c ps).2 = c ∧
    (calculate_price_run c).1 = calculate_price c ∧
    (calculate_price_promo_run c promo).1 = calculate_price_promo c promo ∧
    (calculate_price_promos_run c ps).1 = calculate_price_promos c ps :=
  ⟨rfl, rfl, rfl, rfl, rfl, rfl⟩

/-- C6: unit pricing fails exactly when some identifier in the cart is absent
from the price table; when every identifier is present it returns the sum of
their unit prices; and the failure propagates through the rule-list pricing
overload (which is `none` precisely when charging the reduced cart is). -/
theorem unit_pricing_unknown_sku (cart : Cart) :
    (charge cart = none ↔ ∃ c ∈ cart, unit_prices c = none) ∧
    ((∀ c ∈ cart, unit_prices c ≠ none) →
      charge cart = some ((cart.map (fun c => (unit_prices c).getD 0)).sum)) ∧
    (∀ ps : List Promotion,
      calculate_price_promos cart ps = none ↔
        charge ((ps.foldl promoteStep (0, cart)).2) = none) := by
  refine ⟨charge_eq_none_iff, fun h => charge_eq_sum h, fun ps => ?_⟩
  simp [calculate_price_promos, Option.map_eq_none']

theorem unit_pricing_unknown_sku_witness :
    charge ['a', 'z'] = none ∧
    charge ['a', 'b']
      = some ((['a', 'b'].map (fun c => (unit_prices c).getD 0)).sum) :=
  ⟨(unit_pricing_unknown_sku ['a', 'z']).1.mpr ⟨'z', by decide, by decide⟩,
   (unit_pricing_unknown_sku ['a', 'b']).2.1 (by decide)⟩

/-- C7: a rule with zero qualifying items returns price 0 and leaves the
cart unchanged: a bundle rule when the cart holds fewer than `n` occurrences
of `sku`, a pair rule when either identifier is absent. -/
theorem empty_match_returns_zero (cart : Cart) :
    (∀ (n : Nat) (sku : SKU) (p : Price), cart.count sku < n →
      Individual.do_promote n sku p cart = (0, cart)) ∧
    (∀ (s1 s2 : SKU) (p : Price), s1 ∉ cart ∨ s2 ∉ cart →
      Combined.do_promote s1 s2 p cart = (0, cart)) := by
  constructor
  · intro n sku p h
    exact Individual.do_promote_none (strFind_replicate_eq_none h)
  · intro s1 s2 p h
    rcases h with h | h
    · exact Combined.do_promote_none1 (charFind_eq_none.mpr h)
    · exact Combined.do_promote_none2 (charFind_eq_none.mpr h)

theorem empty_match_returns_zero_witness :
    Individual.do_promote 3 'a' 130 ['a', 'a'] = (0, ['a', 'a']) ∧
    Combined.do_promote 'c' 'd' 30 ['b', 'c'] = (0, ['b', 'c']) :=
  ⟨(empty_match_returns_zero ['a', 'a']).1 3 'a' 130 (by decide),
   (empty_match_returns_zero ['b', 'c']).2 'c' 'd' 30 (Or.inr (by decide))⟩

/-- C8: with the rule list [Individual(3,'a',130), Individual(2,'b',45),
Combined('c','d',30)] and the program's price table, the cart "aaaaabbbbbc"
prices to 370 and the cart "aaabbbbbcd" prices to 280 (scenarios B and C of
the test harness). -/
theorem scenario_composition_prices :
    calculate_price_promos
        ['a', 'a', 'a', 'a', 'a', 'b', 'b', 'b', 'b', 'b', 'c']
        [.individual 3 'a' 130, .individual 2 'b' 45, .combined 'c' 'd' 30]
      = some 370 ∧
    calculate_price_promos
        ['a', 'a', 'a', 'b', 'b', 'b', 'b', 'b', 'c', 'd']
        [.individual 3 'a' 130, .individual 2 'b' 45, .combined 'c' 'd' 30]
      = some 280 := by
  constructor <;>
    simp [calculate_price_promos, promoteStep, Promotion.promote,
      Individual.do_promote, Combined.do_promote, strFind, charFind, strErase,
      List.isPrefixOf, charge, unit_prices]

/-- C9: every iteration of either promotion loop strictly shrinks the cart,
provided each bundle rule has quantity `n ≥ 1`: a successful bundle find
lets the erase remove exactly `n ≥ 1` characters, and a successful pair of
finds lets the two single-character erases remove at least one, so both
loops and the whole list aggregation terminate. -/
theorem promotion_loop_iterations_shrink (cart : Cart) :
    (∀ (n : Nat) (sku : SKU) (pos : Nat), 1 ≤ n →
      strFind (List.replicate n sku) cart = some pos →
      (strErase cart pos n).length < cart.length) ∧
    (∀ (s1 s2 : SKU) (pos1 pos2 : Nat),
      charFind s1 cart = some pos1 → charFind s2 cart = some pos2 →
      (strErase (strErase cart (if pos1 > pos2 then pos1 else pos2) 1)
          (if pos1 > pos2 then pos2 else pos1) 1).length < cart.length) := by
  constructor
  · intro n sku pos hn hfind
    have hb := strFind_bound hfind
    rw [List.length_replicate] at hb
    have h3 := strErase_length cart pos n hb
    omega
  · intro s1 s2 pos1 pos2 h1 h2
    have hb1 := charFind_lt_length h1
    have hb2 := charFind_lt_length h2
    have hq2 : (if pos1 > pos2 then pos1 else pos2) < cart.length := by
      split <;> omega
    have he1 : (strErase cart (if pos1 > pos2 then pos1 else pos2) 1).length
        = cart.length - 1 := strErase_length _ _ _ (by omega)
    have he2 := strErase_length_le
      (strErase cart (if pos1 > pos2 then pos1 else pos2) 1)
      (if pos1 > pos2 then pos2 else pos1) 1
    omega

theorem promotion_loop_iterations_shrink_witness :
    (strErase ['a', 'a'] 0 2).length < (['a', 'a'] : Cart).length ∧
    (strErase (strErase ['c', 'd'] (if (0 : Nat) > 1 then 0 else 1) 1)
        (if (0 : Nat) > 1 then 1 else 0) 1).length
      < (['c', 'd'] : Cart).length :=
  ⟨(promotion_loop_iterations_shrink ['a', 'a']).1 2 'a' 0 (by decide)
     (by decide),
   (promotion_loop_iterations_shrink ['c', 'd']).2 'c' 'd' 0 1 (by decide)
     (by decide)⟩

/-- C10: the single-rule pricing overload agrees with the rule-list overload
applied to the one-element list. -/
theorem single_rule_overload_agree (c : Cart) (promo : Promotion) :
    calculate_price_promo c promo = calculate_price_promos c [promo] := by
  simp only [calculate_price_promo, calculate_price_promos, List.foldl_cons,
    List.foldl_nil, promoteStep]
  cases hch : charge ((promo.promote c).2) <;> simp [hch]
